import Mathlib

/-!
# Verification of seastar `core/future-util.hh` combinators

Shallow embedding of the future combinators of `src/core/future-util.hh`.

A future's eventual outcome is a tagged value (`FResult`): either a value or
an exception.  Exceptions are modelled by an arbitrary type `ε` (instantiated
to `Nat` in concrete witnesses).  A future that exists during a run is either
already available (`SFuture.ready`) or pending with a fixed eventual outcome
(`SFuture.pending`); a single reactor thread processes completions one at a
time, so runs that depend on completion order take that order as an explicit
parameter (a permutation of the pending completions).
-/

/-- Outcome of a resolved future: a value, or a stored exception. -/
inductive FResult (ε α : Type) where
  | ok (a : α)
  | err (e : ε)
deriving DecidableEq, Repr

/-- A future as seen at one point of a run: available now, or pending with a
fixed eventual outcome (delivered later by the reactor). -/
inductive SFuture (ε α : Type) where
  | ready (r : FResult ε α)
  | pending (r : FResult ε α)
deriving DecidableEq, Repr

/-- `future::available()`. -/
def SFuture.available : SFuture ε α → Bool
  | .ready _ => true
  | .pending _ => false

/-- The outcome a future eventually resolves with. -/
def SFuture.resolve : SFuture ε α → FResult ε α
  | .ready r => r
  | .pending r => r

/-- Whether an outcome is a failure. -/
def FResult.isErr : FResult ε α → Bool
  | .ok _ => false
  | .err _ => true

/-! ## `parallel_for_each` (future-util.hh lines 48–115)

The shared `parallel_for_each_state` holds an optional first exception and a
pending count (`waiting`).  The launch loop increments `waiting` once per
element plus one guard increment; every completion (a `then_wrapped`
continuation on the element's future, or the `catch` branch for a synchronous
throw) records its exception if it is the first and decrements `waiting`; the
promise is resolved by whichever decrement reaches zero.  Both the
synchronous-throw path and the failed-future path feed the state identically,
so a run is determined by the chronological sequence of invocation outcomes;
the guard decrement never touches `ex`, so placing it last leaves the
resolved value unchanged. -/

structure parallel_for_each_state (ε : Type) where
  ex : Option ε
  waiting : Nat
  pr : Option (FResult ε Unit)
deriving DecidableEq, Repr

/-- `parallel_for_each_state::complete()`: decrement `waiting`; on reaching
zero resolve the promise with the stored exception, or with success. -/
def parallel_for_each_state.complete (s : parallel_for_each_state ε) :
    parallel_for_each_state ε :=
  if s.waiting - 1 = 0 then
    { s with waiting := 0,
             pr := some (match s.ex with
                         | some e => .err e
                         | none => .ok ()) }
  else
    { s with waiting := s.waiting - 1 }

/-- The `then_wrapped` continuation attached to one invocation's future (and,
identically, the `catch` branch for a synchronous throw): capture the first
exception, drain later ones, then `complete()`. -/
def pfe_on_completion (s : parallel_for_each_state ε) (r : FResult ε Unit) :
    parallel_for_each_state ε :=
  (match r with
   | .err e => if s.ex.isNone then { s with ex := some e } else s
   | .ok _ => s).complete

/-- One whole run of `parallel_for_each`: `completions` lists the invocation
outcomes in chronological completion order.  Empty input returns a ready
future without building any state; otherwise the state starts with the guard
increment plus one increment per element, each completion runs its
continuation, and the guard is released. -/
def parallel_for_each_run (completions : List (FResult ε Unit)) :
    FResult ε Unit :=
  match completions with
  | [] => .ok ()
  | _ =>
    let s0 : parallel_for_each_state ε :=
      { ex := none, waiting := 1 + completions.length, pr := none }
    let s1 := completions.foldl pfe_on_completion s0
    (s1.complete).pr.getD (.ok ())

/-- First exception among a list of outcomes, if any. -/
def firstErr : List (FResult ε α) → Option ε
  | [] => none
  | .ok _ :: rest => firstErr rest
  | .err e :: _ => some e

/-! ## `when_all` (future-util.hh lines 391–499)

`then_wrapped` hands the *completed* future to its continuation, so the input
future's failure is never propagated automatically; `then` runs the
continuation only on success and forwards a failure unchanged.  The
combinators below compute the eventual outcome of such a chain. -/

/-- Eventual outcome of `f.then_wrapped(k)`: the continuation always runs,
receiving `f`'s completed outcome. -/
def SFuture.then_wrapped (f : SFuture ε α) (k : FResult ε α → FResult ε β) :
    FResult ε β :=
  k f.resolve

/-- Eventual outcome of `f.then(k)`: a failure is forwarded without running
the continuation. -/
def SFuture.thenF (f : SFuture ε α) (k : α → FResult ε β) : FResult ε β :=
  match f.resolve with
  | .ok a => k a
  | .err e => .err e

/-- `complete_when_all` (lines 458–475): scan the vector, skipping futures
already available; at the first unready one attach a `then_wrapped`
continuation that stores the completed future back into its slot and
recurses over the tail.  The slot prefix already processed only ever holds
completed futures, so the run is determined by the remaining suffix. -/
def complete_when_all : List (SFuture ε α) → FResult ε (List (FResult ε α))
  | [] => .ok []
  | pos :: rest =>
    if pos.available then
      match complete_when_all rest with
      | .ok v => .ok (pos.resolve :: v)
      | .err e => .err e
    else
      pos.then_wrapped fun fut =>
        match complete_when_all rest with
        | .ok v => .ok (fut :: v)
        | .err e => .err e

/-- `when_all_state::wait<Idx>` (lines 400–410): a slot that is not yet
available is replaced by `then_wrapped` of the identity continuation (which
keeps the shared state alive); either way the slot ends up holding the
completed future. -/
def when_all_slot (f : SFuture ε α) : FResult ε α :=
  if f.available then f.resolve else f.then_wrapped (fun r => r)

/-- `when_all` fixed-arity form at arity two (lines 432–438): the state's
destructor runs once, after both slots are filled, and sets the tuple as the
promise's value (never an exception). -/
def when_all2 (f1 : SFuture ε α) (f2 : SFuture ε β) :
    FResult ε (FResult ε α × FResult ε β) :=
  .ok (when_all_slot f1, when_all_slot f2)

/-! ## `map_reduce`, Initial/Reduce overload (future-util.hh lines 605–632)

The launch loop attaches, to each mapper future, a `then_wrapped`
continuation that immediately folds that mapper's value into the shared
accumulator (`s->result = s->reduce(...)`) and forwards the previous chain
future `ret`; on a failure (mapper future failed, so `f.get0()` throws, or
the reduce call throws) the continuation instead ignores the previous
chain's outcome and fails with the caught exception.  So the accumulator is
updated at each mapper's *completion*, in completion order, while the chain
future `ret_i` resolves to `ret_(i-1)`'s outcome on step `i`'s success and
to step `i`'s exception on its failure.  The run therefore takes the mapper
outcomes in input order plus the completion order (a permutation of the
indices). -/

/-- Record of one `map_reduce` run (Initial/Reduce overload): the outcome of
the returned future, the reduce applications that were performed — as
(input index, accumulator at application time, mapper value), in the order
performed — and the mapper indices whose futures were consumed (by `get0`
in their own continuation), in consumption order. -/
structure MapReduceRun (ε α β : Type) where
  result : FResult ε β
  folds : List (Nat × β × α)
  consumed : List Nat
deriving DecidableEq, Repr

/-- State threaded through the completion events of the Initial/Reduce
overload: the shared accumulator, each completed step's failure (if any),
the reduce applications performed so far and the mapper futures consumed so
far. -/
structure MRState (ε α β : Type) where
  acc : β
  stepErr : List (Nat × Option ε)
  folds : List (Nat × β × α)
  consumed : List Nat

/-- The `then_wrapped` continuation body for mapper index `i`, run when that
mapper completes: `try { s->result = s->reduce(s->result, f.get0()); }`.
`f.get0()` consumes the mapper's future in every case (returning the value
or rethrowing the stored exception, which the catch block captures); when
the mapper succeeded the reduce call is performed — and may itself throw,
which is captured the same way. -/
def mr_on_completion (red : β → α → FResult ε β) (mappers : List (FResult ε α))
    (st : MRState ε α β) (i : Nat) : MRState ε α β :=
  match mappers[i]? with
  | none => st
  | some (.err e) => { st with stepErr := st.stepErr ++ [(i, some e)],
                               consumed := st.consumed ++ [i] }
  | some (.ok a) =>
    match red st.acc a with
    | .ok b => { st with acc := b,
                         stepErr := st.stepErr ++ [(i, none)],
                         folds := st.folds ++ [(i, st.acc, a)],
                         consumed := st.consumed ++ [i] }
    | .err e => { st with stepErr := st.stepErr ++ [(i, some e)],
                          folds := st.folds ++ [(i, st.acc, a)],
                          consumed := st.consumed ++ [i] }

/-- Outcome of the chain future `ret_n`: built in input order; a successful
step forwards the previous chain outcome, a failed step ignores it and fails
with that step's exception. -/
def mr_chain (stepErr : List (Nat × Option ε)) : Nat → FResult ε Unit
  | 0 => .ok ()
  | n + 1 =>
    match lookupStep stepErr n with
    | some e => .err e
    | none => mr_chain stepErr n
where
  /-- Failure recorded for step `i`, if any. -/
  lookupStep (l : List (Nat × Option ε)) (i : Nat) : Option ε :=
    match l.find? (fun p => p.1 = i) with
    | some (_, some e) => some e
    | _ => none

/-- One whole run of the Initial/Reduce `map_reduce` overload: `mappers`
are the mapper outcomes in input order, `order` the indices in completion
order.  The returned future is `ret_n.then([s] { return s->result; })`. -/
def map_reduce_initial (mappers : List (FResult ε α)) (order : List Nat)
    (init : β) (red : β → α → FResult ε β) : MapReduceRun ε α β :=
  let st := order.foldl (mr_on_completion red mappers) ⟨init, [], [], []⟩
  { result :=
      match mr_chain st.stepErr mappers.length with
      | .err e => .err e
      | .ok _ => .ok st.acc,
    folds := st.folds,
    consumed := st.consumed }

/-! ## `map_reduce`, custom-Reducer overload (future-util.hh lines 546–568)

Here the continuation attached to mapper `i` waits for the previous chain
future `ret_(i-1)` before touching the reducer: if the previous chain failed
the mapper's completed future is drained (`ignore_ready_future`) and the
earlier failure forwarded; otherwise the reducer is applied to the mapper's
value (`f.get()` rethrowing a mapper failure).  So reducer applications run
in input order, gated on the predecessor, and stop at the first failure. -/

inductive stop_iteration where
  | no
  | yes
deriving DecidableEq, Repr

/-- Outcome of a loop run over a finite script. -/
inductive LoopOutcome (ε α : Type) where
  | finished (r : FResult ε α)
  | exhausted
deriving DecidableEq, Repr

/-- Trace of a loop run: outcome, synchronous-burst lengths, and the number
of tasks enqueued on the scheduler by the combinator. -/
structure IterTrace (ε α : Type) where
  outcome : LoopOutcome ε α
  bursts : List Nat
  tasks : Nat
deriving DecidableEq, Repr

/-- `repeat` (lines 187–221): the do-while loop applies the action; an
unavailable future gets a `then` continuation that finishes on `yes`,
re-enters `repeat` on `no`, and propagates a failure; an available failure
(`f.get0()` throwing, caught by the enclosing try) or an available `yes`
ends the loop; otherwise `need_preempt()` is consulted and, when it fires,
the remaining work is wrapped in a task handed to `schedule` and a fresh
entry of `repeat` continues from there. -/
def repeatRun (q : Nat) : List (SFuture ε stop_iteration) → Nat → IterTrace ε Unit
  | [], c => ⟨.exhausted, [c], 0⟩
  | .pending r :: rest, c =>
    match r with
    | .err e => ⟨.finished (.err e), [c], 0⟩
    | .ok .yes => ⟨.finished (.ok ()), [c], 0⟩
    | .ok .no =>
      let t := repeatRun q rest 0
      ⟨t.outcome, c :: t.bursts, t.tasks⟩
  | .ready r :: rest, c =>
    match r with
    | .err e => ⟨.finished (.err e), [c + 1], 0⟩
    | .ok .yes => ⟨.finished (.ok ()), [c + 1], 0⟩
    | .ok .no =>
      if q ≤ c + 1 then
        let t := repeatRun q rest 0
        ⟨t.outcome, (c + 1) :: t.bursts, t.tasks + 1⟩
      else
        repeatRun q rest (c + 1)

/-- `repeat_until_value` (lines 258–299): same loop shape as `repeat`, with
an engaged optional terminating the loop and carrying the value out. -/
def repeatUntilValueRun (q : Nat) :
    List (SFuture ε (Option α)) → Nat → IterTrace ε α
  | [], c => ⟨.exhausted, [c], 0⟩
  | .pending r :: rest, c =>
    match r with
    | .err e => ⟨.finished (.err e), [c], 0⟩
    | .ok (some v) => ⟨.finished (.ok v), [c], 0⟩
    | .ok none =>
      let t := repeatUntilValueRun q rest 0
      ⟨t.outcome, c :: t.bursts, t.tasks⟩
  | .ready r :: rest, c =>
    match r with
    | .err e => ⟨.finished (.err e), [c + 1], 0⟩
    | .ok (some v) => ⟨.finished (.ok v), [c + 1], 0⟩
    | .ok none =>
      if q ≤ c + 1 then
        let t := repeatUntilValueRun q rest 0
        ⟨t.outcome, (c + 1) :: t.bursts, t.tasks + 1⟩
      else
        repeatUntilValueRun q rest (c + 1)

/-- One invocation of a caller-supplied action returning `future<>`: either a
synchronous throw or a returned future. -/
inductive ActionStep (ε : Type) where
  | throws (e : ε)
  | returns (f : SFuture ε Unit)
deriving DecidableEq, Repr

/-- `do_until` via `do_until_continued` (lines 144–173, 311–319): the while
loop evaluates the stop condition (modelled as a countdown `stopAfter`),
runs the action inside a try (a synchronous throw fails the promise), and on
an available success loops again — with NO `need_preempt()` consultation
anywhere; an unavailable future's continuation re-enters
`do_until_continued`.  The quota `q` is threaded only so the claimed bound
can be stated against the trace: the source never reads it. -/
def doUntilRun (q : Nat) : Nat → List (ActionStep ε) → Nat → IterTrace ε Unit
  | 0, _, c => ⟨.finished (.ok ()), [c], 0⟩
  | _ + 1, [], c => ⟨.exhausted, [c], 0⟩
  | n + 1, step :: rest, c =>
    match step with
    | .throws e => ⟨.finished (.err e), [c], 0⟩
    | .returns (.pending r) =>
      match r with
      | .err e => ⟨.finished (.err e), [c], 0⟩
      | .ok _ =>
        let t := doUntilRun q n rest 0
        ⟨t.outcome, c :: t.bursts, t.tasks⟩
    | .returns (.ready r) =>
      match r with
      | .err e => ⟨.finished (.err e), [c + 1], 0⟩
      | .ok _ => doUntilRun q n rest (c + 1)

/-- The action `keep_doing` hands to `repeat` (lines 330–336):
`action().then([] { return stop_iteration::no; })` — a success becomes
`no`, a failure propagates (`then` skips the continuation).  A ready action
future yields a ready composite (outcomes are unaffected either way). -/
def kd_transform : SFuture ε Unit → SFuture ε stop_iteration
  | .ready (.ok _) => .ready (.ok .no)
  | .ready (.err e) => .ready (.err e)
  | .pending (.ok _) => .pending (.ok .no)
  | .pending (.err e) => .pending (.err e)

/-- `keep_doing` (lines 328–336): `repeat` applied to the wrapped action. -/
def keepDoingRun (q : Nat) (steps : List (SFuture ε Unit)) : IterTrace ε Unit :=
  repeatRun q (steps.map kd_transform) 0

/-! ## `do_for_each` (future-util.hh lines 350–371)

The top-level call runs a plain loop with no try/catch, so a synchronous
throw from the action escapes `do_for_each` itself as a C++ exception rather
than through the returned future (`thrown`); once the loop has suspended on
an unavailable future, the rest runs inside a `then` continuation whose
futurization turns a synchronous throw into a failed future (`contWrap`). -/

/-- How the result of a `do_for_each` call reaches the caller. -/
inductive DFEOutcome (ε : Type) where
  | thrown (e : ε)
  | fut (r : FResult ε Unit)
deriving DecidableEq, Repr

/-- Trace of a `do_for_each` run: how the result is delivered, and how many
elements the action was invoked on. -/
structure DFERun (ε : Type) where
  outcome : DFEOutcome ε
  invoked : Nat
deriving DecidableEq, Repr

/-- Crossing a `then` continuation boundary: a synchronous throw inside the
continuation is captured into a failed future. -/
def contWrap : DFEOutcome ε → DFEOutcome ε
  | .thrown e => .fut (.err e)
  | .fut r => .fut r

/-- `do_for_each` (lines 350–371): empty range returns a ready future; the
loop invokes the action (uncaught synchronous throw escapes), returns the
last element's future as-is, returns an available failure as-is, chains an
unavailable future with `then` (which forwards a failure without running the
continuation, and restarts `do_for_each` on the rest otherwise), and loops
synchronously over an available success. -/
def doForEach : List (ActionStep ε) → DFERun ε
  | [] => ⟨.fut (.ok ()), 0⟩
  | step :: rest =>
    match step with
    | .throws e => ⟨.thrown e, 1⟩
    | .returns f =>
      match rest with
      | [] => ⟨.fut f.resolve, 1⟩
      | _ :: _ =>
        match f with
        | .ready (.err e) => ⟨.fut (.err e), 1⟩
        | .ready (.ok _) =>
          let t := doForEach rest
          ⟨t.outcome, t.invoked + 1⟩
        | .pending (.err e) => ⟨.fut (.err e), 1⟩
        | .pending (.ok _) =>
          let t := doForEach rest
          ⟨contWrap t.outcome, t.invoked + 1⟩

/-! ## `with_timeout` (future-util.hh lines 726–745)

An available input is returned unchanged before any timer exists.  Otherwise
a timer is armed whose firing sets the timeout exception on the result
promise, and the continuation attached to `f` races it: `timer.cancel()`
reports whether cancellation preempted firing; on success `f` is forwarded
to the promise, on failure `f`'s completed outcome is drained with
`ignore_ready_future`.  The race is modelled by processing the two events in
either order over an explicit timer state machine. -/

inductive TimerState where
  | armed
  | fired
  | cancelled
deriving DecidableEq, Repr

/-- `timer::cancel()`: true iff cancellation preempted firing. -/
def timer_cancel : TimerState → Bool × TimerState
  | .armed => (true, .cancelled)
  | .fired => (false, .fired)
  | .cancelled => (false, .cancelled)

/-- Shared state of one `with_timeout` race. -/
structure WTState (ε α : Type) where
  timer : TimerState
  pr : Option (FResult ε α)
  sets : Nat
  fDelivered : Bool
  fDrained : Bool

/-- The timer's deadline passing: an armed timer fires and its callback sets
the timeout exception on the promise; a cancelled timer does nothing. -/
def wt_timer_fire (timeoutEx : ε) (s : WTState ε α) : WTState ε α :=
  match s.timer with
  | .armed => { s with timer := .fired,
                       pr := some (.err timeoutEx),
                       sets := s.sets + 1 }
  | _ => s

/-- `f`'s continuation: try to cancel the timer; forward `f` into the
promise if cancellation won, otherwise drain `f`'s outcome. -/
def wt_f_complete (f : SFuture ε α) (s : WTState ε α) : WTState ε α :=
  let c := timer_cancel s.timer
  if c.1 then
    { s with timer := c.2, pr := some f.resolve,
             sets := s.sets + 1, fDelivered := true }
  else
    { s with timer := c.2, fDrained := true }

/-- Observable record of one `with_timeout` call. -/
structure WTRun (ε α : Type) where
  result : FResult ε α
  timerArmed : Bool
  promiseSets : Nat
  fDelivered : Bool
  fDrained : Bool
deriving DecidableEq, Repr

/-- `with_timeout` (lines 727–745): available input short-circuits with no
timer; otherwise the armed timer's firing and `f`'s completion are processed
in the order given by `timerFirst` (the deadline may also pass after a
successful cancel, where firing is a no-op). -/
def with_timeout_run (timeoutEx : ε) (f : SFuture ε α) (timerFirst : Bool) :
    WTRun ε α :=
  if f.available then
    ⟨f.resolve, false, 0, true, false⟩
  else
    let s0 : WTState ε α := ⟨.armed, none, 0, false, false⟩
    let s1 :=
      if timerFirst then wt_f_complete f (wt_timer_fire timeoutEx s0)
      else wt_timer_fire timeoutEx (wt_f_complete f s0)
    ⟨s1.pr.getD f.resolve, true, s1.sets, s1.fDelivered, s1.fDrained⟩

/-! ## Derived observations used to state the theorems -/

/-- The failure recorded when step `i`'s mapper completes under a total
reduce function: exactly the mapper's own exception, if any. -/
def errOf (mappers : List (FResult ε α)) (i : Nat) : Option ε :=
  match mappers[i]? with
  | some (.err e) => some e
  | _ => none

/-- Exception of the latest failing mapper among indices below `n`. -/
def lastErrBelow (mappers : List (FResult ε α)) : Nat → Option ε
  | 0 => none
  | n + 1 =>
    match errOf mappers n with
    | some e => some e
    | none => lastErrBelow mappers n

/-- Whether one action invocation neither throws nor yields a failure. -/
def stepOk : ActionStep ε → Bool
  | .throws _ => false
  | .returns f => !f.resolve.isErr

/-- The exception one action invocation produces, if it fails. -/
def stepEx : ActionStep ε → Option ε
  | .throws e => some e
  | .returns f =>
    match f.resolve with
    | .err e => some e
    | .ok _ => none

/-- Whether any invocation of the list returned an unavailable future
(so that the elements after it run inside a `then` continuation). -/
def hasPending : List (ActionStep ε) → Bool
  | [] => false
  | .returns (.pending _) :: _ => true
  | _ :: rest => hasPending rest

/-- Whether an action invocation fails by throwing synchronously. -/
def stepIsThrow : ActionStep ε → Bool
  | .throws _ => true
  | .returns _ => false

/-! # Theorems -/

/-! ## `parallel_for_each` lemmas -/

lemma pfe_complete_of_gt_one (s : parallel_for_each_state ε) (h : 1 < s.waiting) :
    s.complete = { s with waiting := s.waiting - 1 } := by
  unfold parallel_for_each_state.complete
  have hne : ¬(s.waiting - 1 = 0) := by omega
  simp [hne]

lemma pfe_fold_spec (l : List (FResult ε Unit)) :
    ∀ (exa : Option ε) (w : Nat) (p : Option (FResult ε Unit)), l.length < w →
      l.foldl pfe_on_completion ⟨exa, w, p⟩ =
        ⟨(match exa with | some e => some e | none => firstErr l), w - l.length, p⟩ := by
  induction l with
  | nil =>
    intro exa w p _
    cases exa <;> simp [firstErr]
  | cons r rest ih =>
    intro exa w p h
    simp only [List.length_cons] at h
    have h1 : 1 < w := by omega
    have h2 : rest.length < w - 1 := by omega
    simp only [List.foldl_cons]
    cases r with
    | ok a =>
      have hstep : pfe_on_completion ⟨exa, w, p⟩ (.ok a) = ⟨exa, w - 1, p⟩ := by
        simp [pfe_on_completion, pfe_complete_of_gt_one ⟨exa, w, p⟩ h1]
      rw [hstep, ih exa (w - 1) p h2]
      cases exa <;> simp [firstErr] <;> omega
    | err e =>
      cases exa with
      | none =>
        have hstep : pfe_on_completion ⟨none, w, p⟩ (.err e) = ⟨some e, w - 1, p⟩ := by
          simp [pfe_on_completion, pfe_complete_of_gt_one ⟨some e, w, p⟩ h1]
        rw [hstep, ih (some e) (w - 1) p h2]
        simp [firstErr]
        omega
      | some e0 =>
        have hstep : pfe_on_completion ⟨some e0, w, p⟩ (.err e) = ⟨some e0, w - 1, p⟩ := by
          simp [pfe_on_completion, pfe_complete_of_gt_one ⟨some e0, w, p⟩ h1]
        rw [hstep, ih (some e0) (w - 1) p h2]
        simp
        omega

lemma parallel_for_each_run_eq (l : List (FResult ε Unit)) :
    parallel_for_each_run l =
      match firstErr l with
      | some e => .err e
      | none => .ok () := by
  cases l with
  | nil => rfl
  | cons r rest =>
    have hdef : parallel_for_each_run (r :: rest) =
        ((List.foldl pfe_on_completion
            ⟨none, 1 + (r :: rest).length, none⟩ (r :: rest)).complete).pr.getD
          (.ok ()) := rfl
    rw [hdef, pfe_fold_spec (r :: rest) none (1 + (r :: rest).length) none (by omega)]
    have hw : 1 + (r :: rest).length - (r :: rest).length = 1 := by omega
    rw [hw]
    cases hf : firstErr (r :: rest) <;>
      simp [parallel_for_each_state.complete, hf]

lemma firstErr_none_iff (l : List (FResult ε Unit)) :
    firstErr l = none ↔ ∀ r ∈ l, r = .ok () := by
  induction l with
  | nil => simp [firstErr]
  | cons r rest ih =>
    cases r with
    | ok a => cases a; simp [firstErr, ih]
    | err e => simp [firstErr]

lemma firstErr_mem (l : List (FResult ε α)) (e : ε) (h : firstErr l = some e) :
    FResult.err e ∈ l := by
  induction l with
  | nil => simp [firstErr] at h
  | cons r rest ih =>
    cases r with
    | ok a =>
      simp only [firstErr] at h
      exact List.mem_cons_of_mem _ (ih h)
    | err e2 =>
      simp only [firstErr, Option.some.injEq] at h
      subst h
      exact List.mem_cons_self _ _

/-- Claim C1: `parallel_for_each` resolves successfully iff every invocation
of `func` resolves successfully (throwing synchronously and returning a
failed future feed the shared state identically); when `k ≥ 1` invocations
fail, the returned future fails with one of those `k` exceptions.
`invocations` lists the outcomes in input order, `order` the same outcomes
in chronological completion order. -/
theorem parallel_for_each_spec {ε : Type} (invocations order : List (FResult ε Unit))
    (h : order.Perm invocations) :
    (parallel_for_each_run order = .ok () ↔ ∀ r ∈ invocations, r = .ok ()) ∧
    ∀ e, parallel_for_each_run order = .err e → FResult.err e ∈ invocations := by
  have hrun := parallel_for_each_run_eq order
  constructor
  · constructor
    · intro hok r hr
      cases ho : firstErr order with
      | none => exact (firstErr_none_iff order).mp ho r (h.mem_iff.mpr hr)
      | some e =>
        simp only [ho] at hrun
        rw [hrun] at hok
        exact absurd hok (by simp)
    · intro hall
      cases ho : firstErr order with
      | none =>
        simp only [ho] at hrun
        exact hrun
      | some e =>
        have hmem : FResult.err e ∈ invocations :=
          h.mem_iff.mp (firstErr_mem order e ho)
        exact absurd (hall _ hmem) (by simp)
  · intro e he
    cases ho : firstErr order with
    | none =>
      simp only [ho] at hrun
      rw [hrun] at he
      exact absurd he (by simp)
    | some e2 =>
      simp only [ho] at hrun
      rw [hrun] at he
      have he2 : e2 = e := by simpa using he
      subst he2
      exact h.mem_iff.mp (firstErr_mem order e2 ho)

/-- Witness for C1 at a concrete run: one success and one failure,
completing in the opposite of input order. -/
theorem parallel_for_each_spec_witness :
    (parallel_for_each_run [FResult.ok (), FResult.err (3 : Nat)] = .ok () ↔
      ∀ r ∈ [FResult.err (3 : Nat), FResult.ok ()], r = .ok ()) ∧
    ∀ e, parallel_for_each_run [FResult.ok (), FResult.err (3 : Nat)] = .err e →
      FResult.err e ∈ [FResult.err (3 : Nat), FResult.ok ()] :=
  parallel_for_each_spec [FResult.err (3 : Nat), FResult.ok ()]
    [FResult.ok (), FResult.err (3 : Nat)] (List.Perm.swap _ _ _)

/-! ## `when_all` lemmas -/

lemma when_all_slot_eq (f : SFuture ε α) : when_all_slot f = f.resolve := by
  cases f <;>
    simp [when_all_slot, SFuture.available, SFuture.then_wrapped, SFuture.resolve]

lemma complete_when_all_eq (l : List (SFuture ε α)) :
    complete_when_all l = .ok (l.map SFuture.resolve) := by
  induction l with
  | nil => rfl
  | cons pos rest ih =>
    cases pos with
    | ready r =>
      simp [complete_when_all, SFuture.available, ih, SFuture.resolve]
    | pending r =>
      simp [complete_when_all, SFuture.available, SFuture.then_wrapped, ih,
        SFuture.resolve]

/-- Claim C2: `when_all` (homogeneous-range form and fixed-arity form) never
resolves with an exception: it resolves successfully with the container of
the completed input futures, the i-th output slot holding the i-th input's
outcome, whatever mix of successes, failures, ready and pending inputs is
given. -/
theorem when_all_spec {ε α β : Type} (futures : List (SFuture ε α))
    (f1 : SFuture ε α) (f2 : SFuture ε β) :
    complete_when_all futures = .ok (futures.map SFuture.resolve) ∧
    when_all2 f1 f2 = .ok (f1.resolve, f2.resolve) :=
  ⟨complete_when_all_eq futures, by simp [when_all2, when_all_slot_eq]⟩

/-- Claim C10: `do_for_each` on an empty range returns an immediately-ready
successful future and never invokes the action. -/
theorem do_for_each_empty {ε : Type} :
    doForEach ([] : List (ActionStep ε)) = ⟨.fut (.ok ()), 0⟩ :=
  rfl

/-! ## `map_reduce` lemmas -/

lemma foldl_congr_mem {β γ : Type} (l : List γ) :
    ∀ (b : β) (f g : β → γ → β), (∀ b2 x, x ∈ l → f b2 x = g b2 x) →
      l.foldl f b = l.foldl g b := by
  induction l with
  | nil => intro b f g _; rfl
  | cons x rest ih =>
    intro b f g hfg
    simp only [List.foldl_cons]
    rw [hfg b x (by simp)]
    exact ih _ _ _ (fun b2 y hy => hfg b2 y (by simp [hy]))

lemma mr_fold_total {ε α β : Type} (red : β → α → β) (mappers : List (FResult ε α))
    (order : List Nat) :
    ∀ (st : MRState ε α β), (∀ i ∈ order, i < mappers.length) →
      (order.foldl (mr_on_completion (fun b a => FResult.ok (red b a)) mappers) st).acc
          = order.foldl
              (fun b i =>
                match mappers[i]? with
                | some (.ok a) => red b a
                | _ => b) st.acc ∧
      (order.foldl (mr_on_completion (fun b a => FResult.ok (red b a)) mappers) st).stepErr
          = st.stepErr ++ order.map (fun i => (i, errOf mappers i)) ∧
      (order.foldl (mr_on_completion (fun b a => FResult.ok (red b a)) mappers) st).folds.length
          = st.folds.length + order.countP (fun i => (errOf mappers i).isNone) := by
  induction order with
  | nil => intro st _; simp
  | cons i rest ih =>
    intro st hlt
    have hi : i < mappers.length := hlt i (by simp)
    obtain ⟨r, hr⟩ : ∃ r, mappers[i]? = some r :=
      ⟨mappers[i], List.getElem?_eq_getElem hi⟩
    have hrest : ∀ j ∈ rest, j < mappers.length := fun j hj => hlt j (by simp [hj])
    cases r with
    | ok a =>
      have hstep : mr_on_completion (fun b a2 => FResult.ok (red b a2)) mappers st i =
          ⟨red st.acc a, st.stepErr ++ [(i, none)], st.folds ++ [(i, st.acc, a)],
           st.consumed ++ [i]⟩ := by
        simp [mr_on_completion, hr]
      have herr : errOf mappers i = none := by simp [errOf, hr]
      obtain ⟨h1, h2, h3⟩ := ih ⟨red st.acc a, st.stepErr ++ [(i, none)],
        st.folds ++ [(i, st.acc, a)], st.consumed ++ [i]⟩ hrest
      refine ⟨?_, ?_, ?_⟩
      · simp only [List.foldl_cons, hstep, h1, hr]
      · simp only [List.foldl_cons, hstep, h2, List.map_cons, herr]
        simp
      · simp only [List.foldl_cons, hstep, h3, List.countP_cons, herr]
        simp
        omega
    | err e =>
      have hstep : mr_on_completion (fun b a2 => FResult.ok (red b a2)) mappers st i =
          ⟨st.acc, st.stepErr ++ [(i, some e)], st.folds, st.consumed ++ [i]⟩ := by
        simp [mr_on_completion, hr]
      have herr : errOf mappers i = some e := by simp [errOf, hr]
      obtain ⟨h1, h2, h3⟩ := ih ⟨st.acc, st.stepErr ++ [(i, some e)], st.folds,
        st.consumed ++ [i]⟩ hrest
      refine ⟨?_, ?_, ?_⟩
      · simp only [List.foldl_cons, hstep, h1, hr]
      · simp only [List.foldl_cons, hstep, h2, List.map_cons, herr]
        simp
      · simp only [List.foldl_cons, hstep, h3, List.countP_cons, herr]
        simp

lemma lookupStep_map {ε α : Type} (mappers : List (FResult ε α)) (order : List Nat)
    (i : Nat) (hi : i ∈ order) :
    mr_chain.lookupStep (order.map fun j => (j, errOf mappers j)) i =
      errOf mappers i := by
  induction order with
  | nil => cases hi
  | cons j rest ih =>
    unfold mr_chain.lookupStep at ih ⊢
    by_cases hj : j = i
    · subst hj
      rw [List.map_cons, List.find?_cons_of_pos _ (by simp)]
      cases errOf mappers j <;> rfl
    · have hi2 : i ∈ rest := by
        rcases List.mem_cons.mp hi with h | h
        · exact absurd h.symm hj
        · exact h
      rw [List.map_cons, List.find?_cons_of_neg _ (by simp [hj])]
      exact ih hi2

lemma mr_chain_eq_lastErrBelow {ε α : Type} (mappers : List (FResult ε α))
    (order : List Nat) (hmem : ∀ i, i < mappers.length → i ∈ order) :
    ∀ n, n ≤ mappers.length →
      mr_chain (order.map fun j => (j, errOf mappers j)) n =
        match lastErrBelow mappers n with
        | some e => .err e
        | none => .ok () := by
  intro n
  induction n with
  | zero => intro _; rfl
  | succ n ih =>
    intro hn
    have hmem2 : n ∈ order := hmem n (by omega)
    have hch : mr_chain (order.map fun j => (j, errOf mappers j)) (n + 1) =
        match mr_chain.lookupStep (order.map fun j => (j, errOf mappers j)) n with
        | some e => .err e
        | none => mr_chain (order.map fun j => (j, errOf mappers j)) n := rfl
    rw [hch, lookupStep_map mappers order n hmem2]
    have hlb : lastErrBelow mappers (n + 1) =
        match errOf mappers n with
        | some e => some e
        | none => lastErrBelow mappers n := rfl
    rw [hlb]
    cases errOf mappers n with
    | none => simpa using ih (by omega)
    | some e => rfl

lemma lastErrBelow_map_ok {ε α : Type} (vals : List α) :
    ∀ n, lastErrBelow (vals.map (FResult.ok (ε := ε))) n = none := by
  intro n
  induction n with
  | zero => rfl
  | succ n ih =>
    have : errOf (vals.map (FResult.ok (ε := ε))) n = none := by
      unfold errOf
      rw [List.getElem?_map]
      cases vals[n]? <;> simp
    simp only [lastErrBelow, this]
    exact ih

/-- Claim C3 counterexample: with a non-commutative reduce and the two
mapper futures completing in reverse input order, the Initial/Reduce
`map_reduce` does not resolve to the strict left-to-right fold: the fold
runs at each mapper's completion, so it is applied in completion order. -/
theorem map_reduce_initial_not_left_fold :
    (map_reduce_initial (ε := Nat) [FResult.ok 1, FResult.ok 2] [1, 0] (0 : Nat)
        (fun b a => FResult.ok (2 * b + a))).result ≠
      .ok (List.foldl (fun b a => 2 * b + a) 0 [1, 2]) := by
  decide

/-- Claim C3 (amended): with every mapper succeeding, the Initial/Reduce
`map_reduce` overload resolves to the fold of the mapper results in
*completion* order (each fold step runs in its mapper's completion
continuation); when the mappers complete in input order this is the strict
left-to-right fold, and in particular `[1..5]`, identity, `0`, `+` gives
`15`. -/
theorem map_reduce_initial_fold_order {ε α β : Type} [Inhabited α]
    (vals : List α) (order : List Nat)
    (h : order.Perm (List.range vals.length)) (init : β) (red : β → α → β) :
    (map_reduce_initial (ε := ε) (vals.map FResult.ok) order init
        (fun b a => FResult.ok (red b a))).result =
      .ok (order.foldl (fun b i => red b (vals.getD i default)) init) := by
  have hlen : (vals.map (FResult.ok (ε := ε))).length = vals.length := by simp
  have hltall : ∀ i ∈ order, i < (vals.map (FResult.ok (ε := ε))).length := by
    intro i hi
    rw [hlen]
    exact List.mem_range.mp (h.mem_iff.mp hi)
  have hmem : ∀ i, i < (vals.map (FResult.ok (ε := ε))).length → i ∈ order := by
    intro i hi
    rw [hlen] at hi
    exact h.mem_iff.mpr (List.mem_range.mpr hi)
  obtain ⟨h1, h2, _⟩ :=
    mr_fold_total red (vals.map (FResult.ok (ε := ε))) order ⟨init, [], [], []⟩ hltall
  have hdef : (map_reduce_initial (ε := ε) (vals.map FResult.ok) order init
      (fun b a => FResult.ok (red b a))).result =
      (match mr_chain
          (order.foldl (mr_on_completion (fun b a => FResult.ok (red b a))
            (vals.map FResult.ok)) ⟨init, [], [], []⟩).stepErr
          (vals.map (FResult.ok (ε := ε))).length with
       | .err e => .err e
       | .ok _ =>
         .ok (order.foldl (mr_on_completion (fun b a => FResult.ok (red b a))
            (vals.map FResult.ok)) ⟨init, [], [], []⟩).acc) := rfl
  rw [hdef, h2]
  have hchain := mr_chain_eq_lastErrBelow (vals.map (FResult.ok (ε := ε))) order hmem
    (vals.map (FResult.ok (ε := ε))).length (le_refl _)
  rw [lastErrBelow_map_ok] at hchain
  simp only [List.nil_append] at hchain ⊢
  rw [hchain, h1]
  have hfold : order.foldl
      (fun b i =>
        match (vals.map (FResult.ok (ε := ε)))[i]? with
        | some (.ok a) => red b a
        | _ => b) init =
      order.foldl (fun b i => red b (vals.getD i default)) init := by
    apply foldl_congr_mem
    intro b2 i hi
    have hilt : i < vals.length := List.mem_range.mp (h.mem_iff.mp hi)
    rw [List.getElem?_map, List.getElem?_eq_getElem hilt]
    simp [List.getD_eq_getElem?_getD, List.getElem?_eq_getElem hilt]
  rw [hfold]

/-- Witness for the amended C3 at the spec's own example: `[1,2,3,4,5]`,
identity mapper, initial value `0`, addition, in-order completion. -/
theorem map_reduce_initial_fold_order_witness :
    (map_reduce_initial (ε := Nat) ([1, 2, 3, 4, 5].map FResult.ok) [0, 1, 2, 3, 4]
        (0 : Nat) (fun b a => FResult.ok (b + a))).result = .ok 15 := by
  rw [map_reduce_initial_fold_order (ε := Nat) [1, 2, 3, 4, 5] [0, 1, 2, 3, 4]
    (by decide) 0 (fun b a => b + a)]
  decide

lemma repeatRun_bursts_le {ε : Type} (q : Nat)
    (steps : List (SFuture ε stop_iteration)) :
    ∀ c, c + 1 ≤ max q 1 → ∀ b ∈ (repeatRun q steps c).bursts, b ≤ max q 1 := by
  induction steps with
  | nil =>
    intro c hc b hb
    simp [repeatRun] at hb
    omega
  | cons s rest ih =>
    intro c hc b hb
    cases s with
    | pending r =>
      cases r with
      | err e =>
        simp [repeatRun] at hb
        omega
      | ok stop =>
        cases stop with
        | yes =>
          simp [repeatRun] at hb
          omega
        | no =>
          simp only [repeatRun, List.mem_cons] at hb
          rcases hb with rfl | hb
          · omega
          · exact ih 0 (by omega) b hb
    | ready r =>
      cases r with
      | err e =>
        simp [repeatRun] at hb
        omega
      | ok stop =>
        cases stop with
        | yes =>
          simp [repeatRun] at hb
          omega
        | no =>
          by_cases hq : q ≤ c + 1
          · simp only [repeatRun, if_pos hq, List.mem_cons] at hb
            rcases hb with rfl | hb
            · omega
            · exact ih 0 (by omega) b hb
          · simp only [repeatRun, if_neg hq] at hb
            exact ih (c + 1) (by omega) b hb

lemma repeatUntilValueRun_bursts_le {ε α : Type} (q : Nat)
    (steps : List (SFuture ε (Option α))) :
    ∀ c, c + 1 ≤ max q 1 →
      ∀ b ∈ (repeatUntilValueRun q steps c).bursts, b ≤ max q 1 := by
  induction steps with
  | nil =>
    intro c hc b hb
    simp [repeatUntilValueRun] at hb
    omega
  | cons s rest ih =>
    intro c hc b hb
    cases s with
    | pending r =>
      cases r with
      | err e =>
        simp [repeatUntilValueRun] at hb
        omega
      | ok o =>
        cases o with
        | some v =>
          simp [repeatUntilValueRun] at hb
          omega
        | none =>
          simp only [repeatUntilValueRun, List.mem_cons] at hb
          rcases hb with rfl | hb
          · omega
          · exact ih 0 (by omega) b hb
    | ready r =>
      cases r with
      | err e =>
        simp [repeatUntilValueRun] at hb
        omega
      | ok o =>
        cases o with
        | some v =>
          simp [repeatUntilValueRun] at hb
          omega
        | none =>
          by_cases hq : q ≤ c + 1
          · simp only [repeatUntilValueRun, if_pos hq, List.mem_cons] at hb
            rcases hb with rfl | hb
            · omega
            · exact ih 0 (by omega) b hb
          · simp only [repeatUntilValueRun, if_neg hq] at hb
            exact ih (c + 1) (by omega) b hb

/-- Claim C5 counterexample: `do_until` (via `do_until_continued`) performs
no preemption check: with quota 1 and three immediately-ready successful
steps it runs three consecutive synchronous iterations — beyond any bound
the check could impose — and never enqueues a task. -/
theorem do_until_unbounded_sync :
    (doUntilRun (ε := Nat) 1 3
        [.returns (.ready (.ok ())), .returns (.ready (.ok ())),
         .returns (.ready (.ok ()))] 0).bursts = [3] ∧
    (doUntilRun (ε := Nat) 1 3
        [.returns (.ready (.ok ())), .returns (.ready (.ok ())),
         .returns (.ready (.ok ()))] 0).tasks = 0 ∧
    ¬(3 ≤ max 1 1) := by
  decide

/-- Claim C5 (amended): `repeat`, `repeat_until_value` and `keep_doing`
(which runs through `repeat`) consult the preemption check after every
synchronously-completed step and yield to the scheduler when it fires, so
every maximal run of consecutive synchronous iterations is bounded by the
quota; `do_until` makes no such check (see the counterexample). -/
theorem repeat_family_preempt_bound {ε α : Type} (q : Nat)
    (steps1 : List (SFuture ε stop_iteration))
    (steps2 : List (SFuture ε (Option α)))
    (steps3 : List (SFuture ε Unit)) :
    (∀ b ∈ (repeatRun q steps1 0).bursts, b ≤ max q 1) ∧
    (∀ b ∈ (repeatUntilValueRun q steps2 0).bursts, b ≤ max q 1) ∧
    (∀ b ∈ (keepDoingRun q steps3).bursts, b ≤ max q 1) :=
  ⟨repeatRun_bursts_le q steps1 0 (by omega),
   repeatUntilValueRun_bursts_le q steps2 0 (by omega),
   repeatRun_bursts_le q (steps3.map kd_transform) 0 (by omega)⟩

/-- Witness for the amended C5 at concrete scripts with quota 2. -/
theorem repeat_family_preempt_bound_witness :
    (∀ b ∈ (repeatRun (ε := Nat) 2
        [.ready (.ok .no), .ready (.ok .no), .ready (.ok .no), .ready (.ok .yes)]
        0).bursts, b ≤ max 2 1) ∧
    (∀ b ∈ (repeatUntilValueRun (ε := Nat) (α := Nat) 2
        [.ready (.ok none), .ready (.ok (some 7))] 0).bursts, b ≤ max 2 1) ∧
    (∀ b ∈ (keepDoingRun (ε := Nat) 2
        [.ready (.ok ()), .ready (.ok ()), .pending (.err 3)]).bursts, b ≤ max 2 1) :=
  repeat_family_preempt_bound 2
    [.ready (.ok .no), .ready (.ok .no), .ready (.ok .no), .ready (.ok .yes)]
    [.ready (.ok none), .ready (.ok (some 7))]
    [.ready (.ok ()), .ready (.ok ()), .pending (.err 3)]

/-! ## `keep_doing` lemmas -/

lemma repeatRun_no_yes {ε : Type} (q : Nat) (steps : List (SFuture ε stop_iteration)) :
    ∀ c, (∀ s ∈ steps, s.resolve ≠ .ok .yes) →
      (repeatRun q steps c).outcome ≠ .finished (.ok ()) := by
  induction steps with
  | nil => intro c _; simp [repeatRun]
  | cons s rest ih =>
    intro c hs
    have hrest : ∀ s2 ∈ rest, s2.resolve ≠ FResult.ok .yes :=
      fun s2 h2 => hs s2 (by simp [h2])
    have hhead := hs s (by simp)
    cases s with
    | pending r =>
      cases r with
      | err e => simp [repeatRun]
      | ok stop =>
        cases stop with
        | yes => simp [SFuture.resolve] at hhead
        | no => simpa [repeatRun] using ih 0 hrest
    | ready r =>
      cases r with
      | err e => simp [repeatRun]
      | ok stop =>
        cases stop with
        | yes => simp [SFuture.resolve] at hhead
        | no =>
          by_cases hq : q ≤ c + 1
          · simpa [repeatRun, if_pos hq] using ih 0 hrest
          · simpa [repeatRun, if_neg hq] using ih (c + 1) hrest

lemma kd_transform_resolve_ok {ε : Type} (s : SFuture ε Unit)
    (h : s.resolve = .ok ()) :
    kd_transform s = .ready (.ok .no) ∨ kd_transform s = .pending (.ok .no) := by
  cases s with
  | ready r =>
    simp only [SFuture.resolve] at h
    subst h
    exact Or.inl rfl
  | pending r =>
    simp only [SFuture.resolve] at h
    subst h
    exact Or.inr rfl

lemma kd_transform_no_yes {ε : Type} (s : SFuture ε Unit) :
    (kd_transform s).resolve ≠ .ok .yes := by
  cases s with
  | ready r => cases r <;> simp [kd_transform, SFuture.resolve]
  | pending r => cases r <;> simp [kd_transform, SFuture.resolve]

lemma repeatRun_all_no {ε : Type} (q : Nat) (steps : List (SFuture ε stop_iteration)) :
    ∀ c, (∀ s ∈ steps, s.resolve = .ok .no) →
      (repeatRun q steps c).outcome = .exhausted := by
  induction steps with
  | nil => intro c _; rfl
  | cons s rest ih =>
    intro c hs
    have hrest : ∀ s2 ∈ rest, s2.resolve = FResult.ok .no :=
      fun s2 h2 => hs s2 (by simp [h2])
    have hhead := hs s (by simp)
    cases s with
    | pending r =>
      simp only [SFuture.resolve] at hhead
      subst hhead
      simpa [repeatRun] using ih 0 hrest
    | ready r =>
      simp only [SFuture.resolve] at hhead
      subst hhead
      by_cases hq : q ≤ c + 1
      · simpa [repeatRun, if_pos hq] using ih 0 hrest
      · simpa [repeatRun, if_neg hq] using ih (c + 1) hrest

lemma repeatRun_kd_first_err {ε : Type} (q : Nat) (steps : List (SFuture ε Unit)) :
    ∀ c (e : ε), firstErr (steps.map SFuture.resolve) = some e →
      (repeatRun q (steps.map kd_transform) c).outcome = .finished (.err e) := by
  induction steps with
  | nil => intro c e he; simp [firstErr] at he
  | cons s rest ih =>
    intro c e he
    cases s with
    | ready r =>
      cases r with
      | ok a =>
        cases a
        simp only [List.map_cons, SFuture.resolve, firstErr] at he
        by_cases hq : q ≤ c + 1
        · simpa [List.map_cons, kd_transform, repeatRun, if_pos hq] using ih 0 e he
        · simpa [List.map_cons, kd_transform, repeatRun, if_neg hq] using ih (c + 1) e he
      | err e2 =>
        simp only [List.map_cons, SFuture.resolve, firstErr, Option.some.injEq] at he
        subst he
        simp [List.map_cons, kd_transform, repeatRun]
    | pending r =>
      cases r with
      | ok a =>
        cases a
        simp only [List.map_cons, SFuture.resolve, firstErr] at he
        simpa [List.map_cons, kd_transform, repeatRun] using ih 0 e he
      | err e2 =>
        simp only [List.map_cons, SFuture.resolve, firstErr, Option.some.injEq] at he
        subst he
        simp [List.map_cons, kd_transform, repeatRun]

/-- Claim C9: `keep_doing` is `repeat` of the action with every success
mapped to the continue signal (definitionally in this embedding, as in the
source); consequently it never resolves successfully, an all-successful
script leaves it still running (it never terminates), and its terminal
outcome, when there is one, is the first failure's exception. -/
theorem keep_doing_spec {ε : Type} (q : Nat) (steps : List (SFuture ε Unit)) :
    keepDoingRun q steps = repeatRun q (steps.map kd_transform) 0 ∧
    (keepDoingRun q steps).outcome ≠ .finished (.ok ()) ∧
    ((∀ s ∈ steps, s.resolve = .ok ()) →
      (keepDoingRun q steps).outcome = .exhausted) ∧
    (∀ e, firstErr (steps.map SFuture.resolve) = some e →
      (keepDoingRun q steps).outcome = .finished (.err e)) := by
  refine ⟨rfl, ?_, ?_, ?_⟩
  · exact repeatRun_no_yes q (steps.map kd_transform) 0
      (by
        intro s2 h2
        obtain ⟨s, _, rfl⟩ := List.mem_map.mp h2
        exact kd_transform_no_yes s)
  · intro hok
    refine repeatRun_all_no q (steps.map kd_transform) 0 ?_
    intro s2 h2
    obtain ⟨s, hsm, rfl⟩ := List.mem_map.mp h2
    rcases kd_transform_resolve_ok s (hok s hsm) with h | h <;>
      simp [h, SFuture.resolve]
  · intro e he
    exact repeatRun_kd_first_err q steps 0 e he

/-- Witness for C9 at a concrete script: one success then a failure. -/
theorem keep_doing_spec_witness :
    (keepDoingRun (ε := Nat) 2 [.ready (.ok ()), .pending (.err 6)]).outcome =
      .finished (.err 6) :=
  (keep_doing_spec (ε := Nat) 2 [.ready (.ok ()), .pending (.err 6)]).2.2.2 6
    (by decide)

/-! ## `do_for_each` lemmas -/

/-- Claim C6 counterexample: an action that throws synchronously on the very
first element makes `do_for_each` itself throw — the exception reaches the
caller synchronously, not as the returned future's exception (there is no
try/catch around the invocation in the top-level loop). -/
theorem do_for_each_sync_throw_escapes :
    (doForEach [ActionStep.throws (5 : Nat)]).outcome ≠ .fut (.err 5) ∧
    (doForEach [ActionStep.throws (5 : Nat)]).outcome = .thrown 5 := by
  decide

/-- Claim C6 (amended): if the action on some element fails — after every
earlier element's invocation returned and succeeded — `do_for_each` stops
at that element, never invokes the action on any later element, and
propagates exactly that exception; the exception travels through the
returned future, except that a synchronous throw occurring before any
suspension (no earlier invocation returned an unavailable future) escapes
`do_for_each` itself as a synchronous exception. -/
theorem do_for_each_error_propagation {ε : Type} (pre : List (ActionStep ε))
    (step : ActionStep ε) (post : List (ActionStep ε)) (e : ε)
    (hpre : ∀ s ∈ pre, stepOk s = true) (he : stepEx step = some e) :
    doForEach (pre ++ step :: post) =
      ⟨if stepIsThrow step && !hasPending pre then .thrown e else .fut (.err e),
       pre.length + 1⟩ := by
  induction pre with
  | nil =>
    simp only [List.nil_append, List.length_nil]
    cases step with
    | throws e2 =>
      have he2 : e2 = e := by simpa [stepEx] using he
      subst he2
      simp [doForEach, stepIsThrow, hasPending]
    | returns f =>
      have hr : f.resolve = .err e := by
        cases hr2 : f.resolve with
        | ok a => simp [stepEx, hr2] at he
        | err e2 =>
          simp only [stepEx, hr2, Option.some.injEq] at he
          rw [he]
      cases post with
      | nil =>
        have hd : doForEach [ActionStep.returns f] = ⟨.fut f.resolve, 1⟩ := by
          cases f <;> rfl
        rw [hd, hr]
        simp [stepIsThrow, hasPending]
      | cons p ps =>
        cases f with
        | ready r =>
          simp only [SFuture.resolve] at hr
          subst hr
          simp [doForEach, stepIsThrow, hasPending]
        | pending r =>
          simp only [SFuture.resolve] at hr
          subst hr
          simp [doForEach, stepIsThrow, hasPending]
  | cons s pre ih =>
    have hps : stepOk s = true := hpre s (by simp)
    have hpre2 : ∀ s2 ∈ pre, stepOk s2 = true := fun s2 h2 => hpre s2 (by simp [h2])
    cases s with
    | throws e2 => simp [stepOk] at hps
    | returns f =>
      have hr : f.resolve = .ok () := by
        cases hr2 : f.resolve with
        | ok a => cases a; rfl
        | err e2 => simp [stepOk, FResult.isErr, hr2] at hps
      cases f with
      | ready r =>
        simp only [SFuture.resolve] at hr
        subst hr
        have hd : doForEach (ActionStep.returns (SFuture.ready (FResult.ok ())) ::
              (pre ++ step :: post)) =
            ⟨(doForEach (pre ++ step :: post)).outcome,
             (doForEach (pre ++ step :: post)).invoked + 1⟩ := by
          cases hrest : pre ++ step :: post with
          | nil => exact absurd hrest (by simp)
          | cons y ys => rfl
        rw [List.cons_append, hd, ih hpre2]
        simp [hasPending]
      | pending r =>
        simp only [SFuture.resolve] at hr
        subst hr
        have hd : doForEach (ActionStep.returns (SFuture.pending (FResult.ok ())) ::
              (pre ++ step :: post)) =
            ⟨contWrap (doForEach (pre ++ step :: post)).outcome,
             (doForEach (pre ++ step :: post)).invoked + 1⟩ := by
          cases hrest : pre ++ step :: post with
          | nil => exact absurd hrest (by simp)
          | cons y ys => rfl
        rw [List.cons_append, hd, ih hpre2]
        cases hc : stepIsThrow step && !hasPending pre <;>
          simp [hc, contWrap, hasPending]

/-- Witness for the amended C6: a pending success, then a synchronous
throw, then a never-reached element — the throw is delivered through the
returned future because a suspension already happened. -/
theorem do_for_each_error_propagation_witness :
    doForEach [ActionStep.returns (SFuture.pending (FResult.ok ())),
        ActionStep.throws (4 : Nat), ActionStep.returns (SFuture.ready (FResult.ok ()))] =
      ⟨if stepIsThrow (ActionStep.throws (4 : Nat)) &&
          !hasPending ([ActionStep.returns (SFuture.pending (FResult.ok ()))] :
            List (ActionStep Nat)) then
          .thrown 4
        else .fut (.err 4),
       ([ActionStep.returns (SFuture.pending (FResult.ok ()))] :
          List (ActionStep Nat)).length + 1⟩ :=
  do_for_each_error_propagation [ActionStep.returns (SFuture.pending (FResult.ok ()))]
    (ActionStep.throws (4 : Nat)) [ActionStep.returns (SFuture.ready (FResult.ok ()))] 4
    (by decide) (by decide)

/-! ## `with_timeout` lemmas -/

/-- Claim C7: for a pending `f`, when the timer fires before `f` resolves,
the returned future resolves to the timeout exception, `f`'s eventual
outcome is drained and never delivered to the caller, and the promise is
set exactly once; in the opposite order the continuation's cancel wins, the
promise is again set exactly once and `f`'s outcome is forwarded — exactly
one of the two events determines the outcome. -/
theorem with_timeout_timer_fires_first {ε α : Type} (timeoutEx : ε)
    (f : SFuture ε α) (h : f.available = false) :
    with_timeout_run timeoutEx f true =
      ⟨.err timeoutEx, true, 1, false, true⟩ ∧
    (with_timeout_run timeoutEx f false).promiseSets = 1 ∧
    (with_timeout_run timeoutEx f false).result = f.resolve ∧
    (with_timeout_run timeoutEx f false).fDelivered = true := by
  cases f with
  | ready r => simp [SFuture.available] at h
  | pending r =>
    refine ⟨?_, ?_, ?_, ?_⟩ <;>
      simp [with_timeout_run, SFuture.available, SFuture.resolve,
        wt_timer_fire, wt_f_complete, timer_cancel]

/-- Witness for C7 at a concrete pending future. -/
theorem with_timeout_timer_fires_first_witness :
    with_timeout_run (9 : Nat) (SFuture.pending (FResult.ok (2 : Nat))) true =
      ⟨.err 9, true, 1, false, true⟩ ∧
    (with_timeout_run (9 : Nat) (SFuture.pending (FResult.ok (2 : Nat))) false).promiseSets = 1 ∧
    (with_timeout_run (9 : Nat) (SFuture.pending (FResult.ok (2 : Nat))) false).result =
      (SFuture.pending (FResult.ok (2 : Nat))).resolve ∧
    (with_timeout_run (9 : Nat) (SFuture.pending (FResult.ok (2 : Nat))) false).fDelivered = true :=
  with_timeout_timer_fires_first 9 (SFuture.pending (FResult.ok 2)) (by decide)

/-- Claim C8: for an already-resolved `f` (value or exception) and any
deadline (the race order is irrelevant because no race ever starts),
`with_timeout` returns `f`'s exact outcome unchanged and never arms a
timer. -/
theorem with_timeout_ready_passthrough {ε α : Type} (timeoutEx : ε)
    (r : FResult ε α) (timerFirst : Bool) :
    with_timeout_run timeoutEx (SFuture.ready r) timerFirst =
      ⟨r, false, 0, true, false⟩ := by
  simp [with_timeout_run, SFuture.available, SFuture.resolve]
